import Mathlib

/-!
Shallow embedding of the perspective-camera core of
`machinevisiontoolbox/Camera.py` (class `CentralCamera`), over exact
rational arithmetic.  Matrices are Mathlib matrices over `ℚ`; the IEEE
float special values produced by the projection pipeline (NaN for points
behind the camera, infinities from division by zero) are modelled by the
type `FF`.  External numerical routines (numpy's SVD / QR / lstsq) are
not re-implemented: functions that call them take the routine's output
as an explicit argument, and theorems constrain that argument by the
routine's documented postcondition (e.g. for `rq`: `M = K * R` with `K`
upper triangular and `R` orthogonal of positive determinant).
-/

namespace MVT

open Matrix

abbrev Vec3 := Fin 3 → ℚ
abbrev Vec4 := Fin 4 → ℚ
abbrev Mat3 := Matrix (Fin 3) (Fin 3) ℚ
abbrev Mat34 := Matrix (Fin 3) (Fin 4) ℚ
abbrev Mat4 := Matrix (Fin 4) (Fin 4) ℚ

/-- Homogenize a 3-vector: `base.e2h` appends a unit last coordinate. -/
def e2h (P : Vec3) : Vec4 := ![P 0, P 1, P 2, 1]

/-- Skew-symmetric cross-product matrix, as computed by
`spatialmath.base.skew` for a 3-vector. -/
def skewQ (v : Vec3) : Mat3 :=
  Matrix.of ![![0, -v 2, v 1], ![v 2, 0, -v 0], ![-v 1, v 0, 0]]

/-- Closed-form 3x3 determinant (the value `np.linalg.det` computes for a
3x3 matrix, exactly). -/
def det3 (M : Mat3) : ℚ :=
  M 0 0 * (M 1 1 * M 2 2 - M 1 2 * M 2 1)
    - M 0 1 * (M 1 0 * M 2 2 - M 1 2 * M 2 0)
    + M 0 2 * (M 1 0 * M 2 1 - M 1 1 * M 2 0)

/-- Exact counterpart of `np.sign` on a real scalar. -/
def signQ (q : ℚ) : ℚ := if q < 0 then -1 else if q = 0 then 0 else 1

/-- A 3x3 matrix is upper triangular: entries below the diagonal vanish. -/
def upperTri (M : Mat3) : Prop := M 1 0 = 0 ∧ M 2 0 = 0 ∧ M 2 1 = 0

instance (M : Mat3) : Decidable (upperTri M) := by unfold upperTri; infer_instance

/-- Result values of the image-plane pipeline: an exact rational stands
for an ordinary finite float, and the IEEE special values NaN and ±inf
are explicit constructors. -/
inductive FF where
  | fin (q : ℚ)
  | pinf
  | minf
  | nan
  deriving DecidableEq

namespace FF

/-- Test for the NaN marker (`np.isnan`). -/
def isNan : FF → Bool
  | .nan => true
  | _ => false

/-- IEEE comparison `a >= q` against a finite bound: false for NaN. -/
def geQ : FF → ℚ → Bool
  | .fin x, q => decide (q ≤ x)
  | .pinf, _ => true
  | .minf, _ => false
  | .nan, _ => false

/-- IEEE comparison `a < q` against a finite bound: false for NaN. -/
def ltQ : FF → ℚ → Bool
  | .fin x, q => decide (x < q)
  | .pinf, _ => false
  | .minf, _ => true
  | .nan, _ => false

end FF

/-- IEEE division of a finite numerator by a pipeline value, as numpy
performs it elementwise in `base.h2e`: division by NaN gives NaN,
division by (positive) zero gives a signed infinity, and 0/0 gives NaN. -/
def hdiv (num : ℚ) : FF → FF
  | .fin w =>
      if w = 0 then
        if num = 0 then .nan else if 0 < num then .pinf else .minf
      else .fin (num / w)
  | .pinf => .fin 0
  | .minf => .fin 0
  | .nan => .nan

/-- Rigid transform as held by a `spatialmath.SE3` value: rotation block
and translation. -/
structure SE3Q where
  R : Mat3
  t : Vec3

instance : DecidableEq SE3Q := fun a b =>
  decidable_of_iff (a.R = b.R ∧ a.t = b.t)
    (by cases a; cases b; simp [SE3Q.mk.injEq])

namespace SE3Q

/-- Analytic inverse used by `SE3.inv`: `(R, t)⁻¹ = (Rᵀ, -Rᵀ t)`. -/
def inv (T : SE3Q) : SE3Q := ⟨T.R.transpose, -(T.R.transpose *ᵥ T.t)⟩

/-- Composition `T1 * T2` of rigid transforms. -/
def mul (T1 T2 : SE3Q) : SE3Q := ⟨T1.R * T2.R, T1.R *ᵥ T2.t + T1.t⟩

/-- The 4x4 homogeneous matrix `T.A`. -/
def A (T : SE3Q) : Mat4 :=
  Matrix.of ![![T.R 0 0, T.R 0 1, T.R 0 2, T.t 0],
              ![T.R 1 0, T.R 1 1, T.R 1 2, T.t 1],
              ![T.R 2 0, T.R 2 1, T.R 2 2, T.t 2],
              ![0, 0, 0, 1]]

end SE3Q

/-- The `eye(3,4)` projection prefix `P0` used in `CentralCamera.C`. -/
def P0 : Mat34 := Matrix.of ![![1,0,0,0],![0,1,0,0],![0,0,1,0]]

/-- State of a `CentralCamera` object: focal lengths, pixel pitch,
principal point, image size and pose, exactly the attributes read by the
geometric methods.  (Plotting state, name strings and the optional noise
and distortion parameters, which default to `None`, are omitted.) -/
structure CentralCamera where
  fu : ℚ
  fv : ℚ
  rhou : ℚ
  rhov : ℚ
  u0 : ℚ
  v0 : ℚ
  nu : ℚ
  nv : ℚ
  pose : SE3Q

instance : DecidableEq CentralCamera := fun a b =>
  decidable_of_iff (a.fu = b.fu ∧ a.fv = b.fv ∧ a.rhou = b.rhou ∧
      a.rhov = b.rhov ∧ a.u0 = b.u0 ∧ a.v0 = b.v0 ∧ a.nu = b.nu ∧
      a.nv = b.nv ∧ a.pose = b.pose)
    (by cases a; cases b; simp [CentralCamera.mk.injEq])

namespace CentralCamera

/-- Intrinsic matrix property `K`. -/
def K (c : CentralCamera) : Mat3 :=
  Matrix.of ![![c.fu / c.rhou, 0, c.u0],
              ![0, c.fv / c.rhov, c.v0],
              ![0, 0, 1]]

/-- Camera projection matrix `C(T) = K @ eye(3,4) @ T.inv().A`. -/
def C (cam : CentralCamera) (T : SE3Q := cam.pose) : Mat34 :=
  cam.K * (P0 * (SE3Q.inv T).A)

/-- The homogeneous image coordinates `x = C @ P` of one world point
before perspective division (row `j` of the projection pipeline). -/
def homogRow (cam : CentralCamera) (pose : SE3Q) (P : Vec3) (j : Fin 3) : ℚ :=
  (cam.C pose *ᵥ e2h P) j

/-- Camera-frame depth of a world point: third coordinate of
`eye(3,4) @ pose.inv().A @ [P;1]`. -/
def depthOf (cam : CentralCamera) (P : Vec3) (pose : SE3Q := cam.pose) : ℚ :=
  ((P0 * (SE3Q.inv pose).A) *ᵥ e2h P) 2

/-- Projection of a single world point (one column of `project_point`):
form `x = C @ P`, overwrite `x[2]` with NaN when `behind` is set and the
depth is negative, then perspective-divide (`base.h2e`).  The camera's
noise attribute is `None` (no noise is added) and `objpose` is the world
frame, as by default. -/
def project_point1 (cam : CentralCamera) (P : Vec3)
    (pose : SE3Q := cam.pose) (behind : Bool := true) : FF × FF :=
  let x : Vec3 := (cam.C pose) *ᵥ e2h P
  let z : FF := if behind ∧ x 2 < 0 then .nan else .fin (x 2)
  (hdiv (x 0) z, hdiv (x 1) z)

/-- Columnwise `project_point` on a list of world points; numpy's
vectorised operations act on each column independently. -/
def project_point (cam : CentralCamera) (Ps : List Vec3)
    (pose : SE3Q := cam.pose) (behind : Bool := true) : List (FF × FF) :=
  Ps.map (fun P => cam.project_point1 P pose behind)

/-- Per-point visibility test of `project_point(..., visibility=True)`:
`~isnan(x[0]) & (x[0] >= 0) & (x[1] >= 0) & (x[0] < nu) & (x[1] < nv)`,
with IEEE comparison semantics. -/
def visible1 (cam : CentralCamera) (uv : FF × FF) : Bool :=
  (!uv.1.isNan) && uv.1.geQ 0 && uv.2.geQ 0 && uv.1.ltQ cam.nu && uv.2.ltQ cam.nv

/-- The pair returned by `project_point(..., visibility=True)`: the
projected columns together with the per-column visibility booleans. -/
def project_point_vis (cam : CentralCamera) (Ps : List Vec3)
    (pose : SE3Q := cam.pose) (behind : Bool := true) :
    List (FF × FF) × List Bool :=
  let xs := cam.project_point Ps pose behind
  (xs, xs.map cam.visible1)

end CentralCamera

/-- Error outcomes of the embedded operations, one constructor per
`raise` site in the source; `atInfinity` is the camera-at-infinity error
that the specification describes for `decomposeC`, which has no
corresponding `raise` in the code. -/
inductive Err where
  | badShape
  | signAmbiguity
  | atInfinity
  | planeDist
  | planeNormal
  | zLength
  deriving DecidableEq

/-- The inverse of an intrinsic matrix of the upper-triangular form
produced by `CentralCamera.K`, i.e. the exact value `np.linalg.inv`
computes for it (see `K_mul_invK`). -/
def invK (K : Mat3) : Mat3 :=
  Matrix.of ![![1 / K 0 0, 0, -(K 0 2) / K 0 0],
              ![0, 1 / K 1 1, -(K 1 2) / K 1 1],
              ![0, 0, 1]]

namespace CentralCamera

/-- Leading 3x3 block `C[:3,:3]` of a 3x4 matrix. -/
def M33 (Cm : Mat34) : Mat3 := Matrix.of fun i j => Cm i j.castSucc

/-- Diagonal sign-correction matrix `np.diag(np.sign(np.diag(K)))`. -/
def signDiag (K : Mat3) : Mat3 :=
  Matrix.diagonal ![signQ (K 0 0), signQ (K 1 1), signQ (K 2 2)]

/-- Embedding of `CentralCamera.decomposeC`.  The input shape check is
carried by the type `Mat34`.  The two numerical subroutines are passed
in as data: `v` is the last right-singular vector of `C` delivered by
`np.linalg.svd` (a kernel vector of `C` when `C` has rank 3), and
`(K, R)` is the output of the internal `rq` helper, whose postcondition
is `C[:3,:3] = K @ R` with `K` upper triangular and `R` orthogonal with
positive determinant.  The dehomogenising division `t / t[3]` is
performed unconditionally, exactly as in the code; the only error path
is the sign-correction check `np.isclose(det(diag(sign)), 1)`. -/
def decomposeC (v : Vec4) (K R : Mat3) : Except Err CentralCamera :=
  -- camera position: dehomogenize the kernel vector
  let t : Vec3 := fun i => v i.castSucc / v 3
  -- sign-correction matrix for the RQ factor K
  let D : Mat3 := signDiag K
  if det3 D = 1 then
    let K1 := K * D
    let R1 := D.transpose * R
    -- normalize K so that the lower-right entry is 1
    let K2 : Mat3 := Matrix.of fun i j => K1 i j / K1 2 2
    let f := K2 0 0
    let s : ℚ := K2 1 1 / K2 0 0
    -- `cls(name='invC', f=f, pp=K[:2,2], rho=np.r_[1,s], pose=SE3.Rt(R.T,t))`
    -- with the base-class default imagesize (1024, 1024)
    .ok { fu := f, fv := f, rhou := 1, rhov := s,
          u0 := K2 0 2, v0 := K2 1 2, nu := 1024, nv := 1024,
          pose := ⟨R1.transpose, t⟩ }
  else
    .error .signAmbiguity

/-- One row pair of the DLT system built by `points2C` for a world point
`X` and image point `(u, v)`: `[X, 1, 0⁴, -u·X]` and `[0⁴, X, 1, -v·X]`. -/
def dltRows (X : Vec3) (uv : Fin 2 → ℚ) : List (Fin 11 → ℚ) :=
  [![X 0, X 1, X 2, 1, 0, 0, 0, 0, -uv 0 * X 0, -uv 0 * X 1, -uv 0 * X 2],
   ![0, 0, 0, 0, X 0, X 1, X 2, 1, -uv 1 * X 0, -uv 1 * X 1, -uv 1 * X 2]]

/-- The stacked DLT coefficient matrix `A` (as its list of rows). -/
def dltA (P : List Vec3) (p : List (Fin 2 → ℚ)) : List (Fin 11 → ℚ) :=
  (List.zip p P).flatMap fun z => dltRows z.2 z.1

/-- The stacked DLT right-hand side `b`: the image coordinates. -/
def dltB (p : List (Fin 2 → ℚ)) : List ℚ :=
  p.flatMap fun uv => [uv 0, uv 1]

/-- Reshape `np.r_[c, 1]` into a 3x4 matrix, row-major. -/
def reshape34 (c : Fin 11 → ℚ) : Mat34 :=
  Matrix.of fun i j =>
    if h : 4 * (i : ℕ) + (j : ℕ) < 11 then c ⟨4 * i + j, h⟩ else 1

/-- Embedding of the static method `CentralCamera.points2C`.  The least
squares solve is external (`scipy.linalg.lstsq`), so the solver is a
parameter mapping the assembled system `(A, b)` to an 11-vector; the
method itself merely assembles the system, reshapes the solution with an
appended 1, and reports the residual `A @ c - b`.  It has no failure
path. -/
def points2C (P : List Vec3) (p : List (Fin 2 → ℚ))
    (lstsq : List (Fin 11 → ℚ) → List ℚ → (Fin 11 → ℚ)) :
    Mat34 × List ℚ :=
  let A := dltA P p
  let b := dltB p
  let c := lstsq A b
  let r := List.zipWith (fun row bi => (∑ k, row k * c k) - bi) A b
  (reshape34 c, r)

/-- Embedding of `CentralCamera.H` (homography from plane).  Note that
`T.t @ N` in the source contracts two 1-D arrays to a scalar dot
product, which numpy then broadcast-adds to every entry of `T.R`; the
embedding reproduces this.  The division by `d` and by `HH[2,2]` are the
total rational divisions (numpy raises no error there). -/
def H (cam : CentralCamera) (T : SE3Q) (N : Vec3) (d : ℚ) :
    Except Err Mat3 :=
  if d < 0 then .error .planeDist
  else if N 2 < 0 then .error .planeNormal
  else
    let Ti := SE3Q.inv T
    let s : ℚ := 1 / d * (Ti.t ⬝ᵥ N)
    let HH : Mat3 := Matrix.of fun i j => Ti.R i j + s
    let HH2 := cam.K * HH * invK cam.K
    .ok (Matrix.of fun i j => HH2 i j / HH2 2 2)

/-- Embedding of `CentralCamera.E` on the `SE3` branch:
`T21 = other.inv()`, then `skew(T21.t) @ T21.R`. -/
def E_rel (_cam : CentralCamera) (T : SE3Q) : Mat3 :=
  let T21 := SE3Q.inv T
  skewQ T21.t * T21.R

/-- Embedding of `CentralCamera.E` on the camera branch:
`T21 = other.pose.inv() * self.pose`, then `skew(T21.t) @ T21.R`. -/
def E_cam (cam other : CentralCamera) : Mat3 :=
  let T21 := (SE3Q.inv other.pose).mul cam.pose
  skewQ T21.t * T21.R

/-- Embedding of `CentralCamera.E` on the fundamental-matrix branch:
`K.T @ F @ K`. -/
def E_fromF (cam : CentralCamera) (F : Mat3) : Mat3 :=
  cam.K.transpose * F * cam.K

/-- Embedding of `CentralCamera.F` on the `SE3` branch:
`inv(K).T @ E @ inv(K)` with `E = self.E(T)`. -/
def F_rel (cam : CentralCamera) (T : SE3Q) : Mat3 :=
  (invK cam.K).transpose * cam.E_rel T * invK cam.K

/-- Embedding of `CentralCamera.F` on the camera branch:
`inv(K2).T @ E @ inv(K1)` with `E = self.E(other)`, `K1 = self.K`,
`K2 = other.K`. -/
def F_cam (cam other : CentralCamera) : Mat3 :=
  (invK other.K).transpose * cam.E_cam other * invK cam.K

/-- The upper-left 2x2 block `K[:2,:2]`. -/
def K22 (K : Mat3) : Matrix (Fin 2) (Fin 2) ℚ :=
  Matrix.of ![![K 0 0, K 0 1], ![K 1 0, K 1 1]]

/-- The per-point 2x6 interaction-matrix block computed inside the
`visjac_p` loop: normalized coordinates `xy = inv(K) @ [u;v;1]`, then
`K[:2,:2] @ [[-1/z, 0, x/z, xy, -(1+x²), y], [0, -1/z, y/z, 1+y², -xy, -x]]`. -/
def visjacBlock (cam : CentralCamera) (z : ℚ) (p : ℚ × ℚ) :
    Matrix (Fin 2) (Fin 6) ℚ :=
  let xy := invK cam.K *ᵥ ![p.1, p.2, 1]
  let x := xy 0
  let y := xy 1
  K22 cam.K *
    Matrix.of ![![-1/z, 0, x/z, x * y, -(1 + x^2), y],
                ![0, -1/z, y/z, 1 + y^2, -(x*y), -x]]

/-- Embedding of `CentralCamera.visjac_p`.  The image points are the
columns of `uv`; a length-1 depth vector is broadcast with `np.repeat`,
a length-N one is used per point, and any other length raises.  The
stacked 2Nx6 result is represented as the list of its 2x6 row blocks,
in input-point order (`np.vstack` in the loop). -/
def visjac_p (cam : CentralCamera) (uv : List (ℚ × ℚ)) (Z : List ℚ) :
    Except Err (List (Matrix (Fin 2) (Fin 6) ℚ)) :=
  if hz : Z.length = 1 then
    let z := Z.head (by intro h; rw [h] at hz; exact absurd hz (by simp))
    .ok (uv.map (fun p => cam.visjacBlock z p))
  else if Z.length = uv.length then
    .ok (List.zipWith (fun z p => cam.visjacBlock z p) Z uv)
  else
    .error .zLength

end CentralCamera

/-! ### Helper lemmas about the projection pipeline -/

namespace CentralCamera

/-- The third homogeneous output coordinate of the projection is the
camera-frame depth: the last row of `K` is `(0,0,1)`. -/
lemma homog_two_eq_depth (cam : CentralCamera) (pose : SE3Q) (P : Vec3) :
    ((cam.C pose) *ᵥ e2h P) 2 = cam.depthOf P pose := by
  simp [CentralCamera.C, depthOf, K, Matrix.mulVec, Matrix.mul_apply,
    Matrix.dotProduct, Fin.sum_univ_three, Fin.sum_univ_four]

/-- A point of strictly negative camera-frame depth projects to the NaN
sentinel in both coordinates when the `behind` check is enabled. -/
lemma project_point1_behind (cam : CentralCamera) (pose : SE3Q) (P : Vec3)
    (h : cam.depthOf P pose < 0) :
    cam.project_point1 P pose true = (FF.nan, FF.nan) := by
  simp [project_point1, hdiv, homog_two_eq_depth, h]

/-- Characterisation of the visibility boolean: true exactly for a pair
of finite coordinates inside `[0, nu) × [0, nv)`. -/
lemma visible1_iff (cam : CentralCamera) (uv : FF × FF) :
    cam.visible1 uv = true ↔
      ∃ u v : ℚ, uv = (FF.fin u, FF.fin v) ∧
        0 ≤ u ∧ u < cam.nu ∧ 0 ≤ v ∧ v < cam.nv := by
  obtain ⟨a, b⟩ := uv
  cases a <;> cases b
  all_goals simp [visible1, FF.isNan, FF.geQ, FF.ltQ]
  all_goals aesop

/-- Division by an exact (positive) zero, case-split into the claim's
reading: a signed infinity for a nonzero numerator, NaN for `0/0`. -/
lemma hdiv_zero (num : ℚ) :
    hdiv num (FF.fin 0) =
      (if 0 < num then FF.pinf else if num < 0 then FF.minf else FF.nan) := by
  rcases lt_trichotomy num 0 with h | h | h
  · simp [hdiv, h, h.ne, not_lt.mpr h.le]
  · simp [hdiv, h]
  · simp [hdiv, h, h.ne.symm]

/-- At exactly zero depth the sentinel test `x[2] < 0` is false, so both
coordinates are produced by dividing by the exact zero. -/
lemma project_point1_zero_depth (cam : CentralCamera) (pose : SE3Q)
    (P : Vec3) (h0 : cam.depthOf P pose = 0) (behind : Bool) :
    cam.project_point1 P pose behind =
      (hdiv (cam.homogRow pose P 0) (FF.fin 0),
       hdiv (cam.homogRow pose P 1) (FF.fin 0)) := by
  simp [project_point1, homogRow, homog_two_eq_depth, h0]

end CentralCamera

/-- Identity pose (the default `SE3()`). -/
def idPose : SE3Q :=
  ⟨Matrix.of ![![1,0,0],![0,1,0],![0,0,1]], ![0,0,0]⟩

/-- A concrete unit camera (all intrinsics trivial) used by witnesses. -/
def cam0 : CentralCamera :=
  { fu := 1, fv := 1, rhou := 1, rhov := 1, u0 := 0, v0 := 0,
    nu := 1024, nv := 1024, pose := idPose }

namespace CentralCamera

/-- C2 (behind-camera sentinel): for a point of strictly negative
camera-frame depth, `project_point` with the `behind` check enabled
returns NaN in both coordinates of that point's column and the
visibility boolean for that column is false; moreover a column's
visibility boolean is true exactly when both projected coordinates are
finite (not NaN) and lie in `[0, nu) × [0, nv)`. -/
theorem behind_sentinel_and_visibility
    (cam : CentralCamera) (Ps : List Vec3) (i : ℕ) (P : Vec3)
    (hP : Ps[i]? = some P) :
    (cam.depthOf P < 0 →
        (cam.project_point Ps)[i]? = some (FF.nan, FF.nan) ∧
        (cam.project_point_vis Ps).2[i]? = some false) ∧
    ((cam.project_point_vis Ps).2[i]? = some true ↔
      ∃ u v : ℚ, (cam.project_point Ps)[i]? = some (FF.fin u, FF.fin v) ∧
        0 ≤ u ∧ u < cam.nu ∧ 0 ≤ v ∧ v < cam.nv) := by
  constructor
  · intro h
    constructor
    · simp [project_point, hP, project_point1_behind cam cam.pose P h]
    · simp [project_point_vis, project_point, hP,
        project_point1_behind cam cam.pose P h, visible1, FF.isNan]
  · simp only [project_point_vis, project_point, List.map_map, List.getElem?_map,
      hP, Option.map_some, Option.some_inj, Function.comp_apply]
    simpa using visible1_iff cam (cam.project_point1 P cam.pose true)

/-- Witness for C2 at a concrete camera and point of depth `-2`. -/
theorem behind_sentinel_and_visibility_witness :
    cam0.depthOf ![0, 0, -2] < 0 ∧
    (cam0.project_point [![0, 0, -2]])[0]? = some (FF.nan, FF.nan) ∧
    (cam0.project_point_vis [![0, 0, -2]]).2[0]? = some false := by
  have hd : cam0.depthOf ![0, 0, -2] < 0 := by
    simp [CentralCamera.depthOf, cam0, idPose, P0, SE3Q.inv, SE3Q.A, e2h,
      Matrix.mulVec, Matrix.mul_apply, Matrix.dotProduct, Matrix.transpose_apply,
      Matrix.transpose, Matrix.vecHead, Matrix.vecTail,
      Fin.sum_univ_three, Fin.sum_univ_four]
  exact ⟨hd,
    (behind_sentinel_and_visibility cam0 [![0, 0, -2]] 0 _ rfl).1 hd⟩

/-- C10 (amended, zero-depth edge case): at camera-frame depth exactly
zero the strict test `x[2] < 0` leaves the third coordinate untouched,
so no NaN sentinel is applied; the perspective division by the exact
zero then yields a signed infinity in each coordinate whose numerator is
nonzero, and NaN (from `0/0`) in a coordinate whose numerator is zero. -/
theorem zero_depth_no_sentinel
    (cam : CentralCamera) (Ps : List Vec3) (i : ℕ) (P : Vec3)
    (hP : Ps[i]? = some P) (h0 : cam.depthOf P = 0) :
    (cam.project_point Ps)[i]? = some
      (if 0 < cam.homogRow cam.pose P 0 then FF.pinf
        else if cam.homogRow cam.pose P 0 < 0 then FF.minf else FF.nan,
       if 0 < cam.homogRow cam.pose P 1 then FF.pinf
        else if cam.homogRow cam.pose P 1 < 0 then FF.minf else FF.nan) := by
  simp [project_point, hP, project_point1_zero_depth cam cam.pose P h0,
    hdiv_zero]

/-- Witness for the amended C10: a point at depth zero with nonzero
numerators projects to signed infinities, not to the NaN sentinel. -/
theorem zero_depth_no_sentinel_witness :
    cam0.depthOf ![1, -1, 0] = 0 ∧
    (cam0.project_point [![1, -1, 0]])[0]? = some
      (if 0 < cam0.homogRow cam0.pose ![1, -1, 0] 0 then FF.pinf
        else if cam0.homogRow cam0.pose ![1, -1, 0] 0 < 0 then FF.minf
        else FF.nan,
       if 0 < cam0.homogRow cam0.pose ![1, -1, 0] 1 then FF.pinf
        else if cam0.homogRow cam0.pose ![1, -1, 0] 1 < 0 then FF.minf
        else FF.nan) := by
  have h0 : cam0.depthOf ![1, -1, 0] = 0 := by
    simp [CentralCamera.depthOf, cam0, idPose, P0, SE3Q.inv, SE3Q.A, e2h,
      Matrix.mulVec, Matrix.mul_apply, Matrix.dotProduct, Matrix.transpose_apply,
      Matrix.transpose, Matrix.vecHead, Matrix.vecTail,
      Fin.sum_univ_three, Fin.sum_univ_four]
  exact ⟨h0, zero_depth_no_sentinel cam0 [![1, -1, 0]] 0 _ rfl h0⟩

/-- Counterexample to C10 as stated: the origin point has camera-frame
depth exactly zero, yet its projected coordinates are NaN (`0/0`), not
non-NaN infinities. -/
theorem zero_depth_counterexample :
    cam0.depthOf ![0, 0, 0] = 0 ∧
    cam0.project_point [![0, 0, 0]] = [(FF.nan, FF.nan)] := by
  have h0 : cam0.depthOf ![0, 0, 0] = 0 := by
    simp [CentralCamera.depthOf, cam0, idPose, P0, SE3Q.inv, SE3Q.A, e2h,
      Matrix.mulVec, Matrix.mul_apply, Matrix.dotProduct, Matrix.transpose_apply,
      Matrix.transpose, Matrix.vecHead, Matrix.vecTail,
      Fin.sum_univ_three, Fin.sum_univ_four]
  refine ⟨h0, ?_⟩
  have hx : ∀ j : Fin 3, cam0.homogRow cam0.pose ![0, 0, 0] j = 0 := by
    intro j
    fin_cases j <;>
      simp [CentralCamera.homogRow, CentralCamera.C, CentralCamera.K, cam0,
        idPose, P0, SE3Q.inv, SE3Q.A, e2h, Matrix.mulVec, Matrix.mul_apply,
        Matrix.dotProduct, Matrix.transpose_apply, Matrix.transpose,
        Matrix.vecHead, Matrix.vecTail, Fin.sum_univ_three,
        Fin.sum_univ_four]
  have hp := project_point1_zero_depth cam0 cam0.pose ![0, 0, 0] h0 true
  rw [hx 0, hx 1] at hp
  simp [project_point, hp, hdiv]

end CentralCamera

/-! ### Rigid-transform algebra -/

/-- Structure extensionality for rigid transforms. -/
lemma SE3Q.ext' {a b : SE3Q} (hR : a.R = b.R) (ht : a.t = b.t) : a = b := by
  cases a; cases b; cases hR; cases ht; rfl

/-- For an orthonormal first-view pose `P`, the relative transform
`(P * T)⁻¹ * P` computed by the camera-pair branch of `E` collapses to
`T⁻¹`. -/
lemma inv_mul_cancel_rel (P T : SE3Q) (hP : P.R.transpose * P.R = 1) :
    (SE3Q.inv (P.mul T)).mul P = SE3Q.inv T := by
  have hR : (P.R * T.R).transpose * P.R = T.R.transpose := by
    rw [Matrix.transpose_mul, Matrix.mul_assoc, hP, Matrix.mul_one]
  refine SE3Q.ext' ?_ ?_
  · simpa [SE3Q.inv, SE3Q.mul] using hR
  · show (P.R * T.R).transpose *ᵥ P.t +
        -((P.R * T.R).transpose *ᵥ (P.R *ᵥ T.t + P.t)) =
        -(T.R.transpose *ᵥ T.t)
    rw [Matrix.mulVec_add, Matrix.mulVec_mulVec, hR]
    abel

/-- A concrete rational rotation about the z-axis (a 3-4-5 rotation). -/
def rot35 : Mat3 :=
  Matrix.of ![![3/5, -4/5, 0], ![4/5, 3/5, 0], ![0, 0, 1]]

/-- A concrete relative motion used by witnesses. -/
def Tmove : SE3Q := ⟨rot35, ![1, 0, 0]⟩

/-- The camera `cam0` displaced by the relative motion `Tmove`. -/
def camMoved : CentralCamera := { cam0 with pose := idPose.mul Tmove }

namespace CentralCamera

/-- Counterexample to C3 as stated: for the pure translation
`T = (I, (1,0,0))` the essential matrix computed by `E(T)` is
`skew((T⁻¹).t) @ (T⁻¹).R = -skew(t)`, not `skew(t) @ R`. -/
theorem E_rel_counterexample :
    cam0.E_rel ⟨idPose.R, ![1, 0, 0]⟩ ≠
      skewQ ![1, 0, 0] * (⟨idPose.R, ![1, 0, 0]⟩ : SE3Q).R := by
  intro h
  have h12 := congrFun (congrFun h 1) 2
  simp [E_rel, SE3Q.inv, idPose, skewQ, Matrix.mul_apply, Matrix.mulVec,
    Matrix.dotProduct, Matrix.transpose, Matrix.vecHead, Matrix.vecTail,
    Fin.sum_univ_three] at h12
  norm_num at h12

/-- C3 (amended): the `SE3` branch of `E` computes the essential matrix
from the INVERSE of the supplied relative motion,
`E(T) = skew((T⁻¹).t) @ (T⁻¹).R`; this is the convention consistent with
the camera-pair branch: when the second camera's pose is the first
camera's pose composed with `T` (and the first pose is orthonormal),
`C1.E(C2)` agrees with `C1.E(T)`. -/
theorem E_rel_uses_inverse (cam1 cam2 : CentralCamera) (T : SE3Q)
    (hP : cam1.pose.R.transpose * cam1.pose.R = 1)
    (h2 : cam2.pose = cam1.pose.mul T) :
    cam1.E_rel T = skewQ (SE3Q.inv T).t * (SE3Q.inv T).R ∧
    cam1.E_cam cam2 = cam1.E_rel T := by
  constructor
  · rfl
  · unfold E_cam E_rel
    rw [h2, inv_mul_cancel_rel cam1.pose T hP]

/-- Witness for the amended C3 at `cam0` (identity pose) and the motion
`Tmove`. -/
theorem E_rel_uses_inverse_witness :
    (cam0.pose.R.transpose * cam0.pose.R = 1 ∧
      camMoved.pose = cam0.pose.mul Tmove) ∧
    (cam0.E_rel Tmove = skewQ (SE3Q.inv Tmove).t * (SE3Q.inv Tmove).R ∧
      cam0.E_cam camMoved = cam0.E_rel Tmove) := by
  have hP : cam0.pose.R.transpose * cam0.pose.R = 1 := by
    ext i j
    fin_cases i <;> fin_cases j <;>
      simp [cam0, idPose, Matrix.mul_apply, Matrix.transpose,
        Matrix.vecHead, Matrix.vecTail, Fin.sum_univ_three, Matrix.one_apply]
  exact ⟨⟨hP, rfl⟩, E_rel_uses_inverse cam0 camMoved Tmove hP rfl⟩

/-- C7: guard behaviour of the homography-from-plane operation `H`.  The
code rejects `d < 0` and `N[2] < 0`, but a plane distance of exactly
zero passes the `d < 0` guard (despite the error message demanding
`d > 0`) and reaches the division `1/d`: at `d = 0` the call returns a
homography instead of a degenerate-input error. -/
theorem H_guard_behavior :
    (∀ (cam : CentralCamera) (T : SE3Q) (N : Vec3) (d : ℚ), d < 0 →
        cam.H T N d = .error Err.planeDist) ∧
    (∀ (cam : CentralCamera) (T : SE3Q) (N : Vec3) (d : ℚ), ¬d < 0 →
        N 2 < 0 → cam.H T N d = .error Err.planeNormal) ∧
    (∃ M : Mat3, cam0.H ⟨idPose.R, ![0, 0, 2]⟩ ![0, 0, 1] 0 = .ok M) := by
  refine ⟨fun cam T N d hd => by simp [H, hd], ?_, ?_⟩
  · intro cam T N d hd hN
    simp [H, hd, hN]
  · have h1 : ¬(0 : ℚ) < 0 := lt_irrefl 0
    have h2 : ¬(![0, 0, 1] : Vec3) 2 < 0 := by norm_num
    unfold H
    rw [if_neg h1, if_neg h2]
    exact ⟨_, rfl⟩

/-- Witness for C7's universally quantified guard clauses at concrete
inputs. -/
theorem H_guard_behavior_witness :
    ((-1 : ℚ) < 0 ∧ cam0.H Tmove ![0, 0, 1] (-1) = .error Err.planeDist) ∧
    (¬(1 : ℚ) < 0 ∧ (![0, 0, -1] : Vec3) 2 < 0 ∧
      cam0.H Tmove ![0, 0, -1] 1 = .error Err.planeNormal) := by
  have hd : (-1 : ℚ) < 0 := by norm_num
  have h1 : ¬(1 : ℚ) < 0 := by norm_num
  have hN : (![0, 0, -1] : Vec3) 2 < 0 := by norm_num
  exact ⟨⟨hd, H_guard_behavior.1 cam0 Tmove ![0, 0, 1] (-1) hd⟩,
    ⟨h1, hN, H_guard_behavior.2.1 cam0 Tmove ![0, 0, -1] 1 h1 hN⟩⟩

/-- C8: for two camera views sharing the same intrinsic matrix `K`, the
fundamental matrix `C1.F(C2)` equals `inv(K).T @ E @ inv(K)` where
`E = C1.E(C2)` is the essential matrix of the same relative pose. -/
theorem F_of_shared_K (cam1 cam2 : CentralCamera) (h : cam1.K = cam2.K) :
    cam1.F_cam cam2 =
      (invK cam1.K).transpose * cam1.E_cam cam2 * invK cam1.K := by
  unfold F_cam
  rw [h]

/-- Witness for C8: `cam0` and `camMoved` share intrinsics literally. -/
theorem F_of_shared_K_witness :
    cam0.K = camMoved.K ∧
    cam0.F_cam camMoved =
      (invK cam0.K).transpose * cam0.E_cam camMoved * invK cam0.K :=
  ⟨rfl, F_of_shared_K cam0 camMoved rfl⟩

/-- Sanity check that `invK` is the exact inverse `np.linalg.inv`
returns on the upper-triangular intrinsic family: `K @ inv(K) = I`
whenever the two diagonal pixel-focal ratios are nonzero. -/
lemma K_mul_invK (cam : CentralCamera) (ha : cam.fu / cam.rhou ≠ 0)
    (hb : cam.fv / cam.rhov ≠ 0) : cam.K * invK cam.K = 1 := by
  have hfu : cam.fu ≠ 0 := fun h => ha (by simp [h])
  have hru : cam.rhou ≠ 0 := fun h => ha (by simp [h])
  have hfv : cam.fv ≠ 0 := fun h => hb (by simp [h])
  have hrv : cam.rhov ≠ 0 := fun h => hb (by simp [h])
  ext i j
  fin_cases i <;> fin_cases j
  all_goals simp [CentralCamera.K, invK, Matrix.mul_apply, Fin.sum_univ_three,
    Matrix.one_apply, Matrix.vecHead, Matrix.vecTail]
  all_goals field_simp
  all_goals ring

end CentralCamera

/-- Indexing a `zipWith` at a position defined in both lists. -/
lemma getElem?_zipWith' {α β γ : Type} (f : α → β → γ) :
    ∀ (as : List α) (bs : List β) (i : ℕ) (a : α) (b : β),
      as[i]? = some a → bs[i]? = some b →
      (List.zipWith f as bs)[i]? = some (f a b) := by
  intro as
  induction as with
  | nil => intro bs i a b ha _; simp at ha
  | cons x xs ih =>
    intro bs i a b ha hb
    cases bs with
    | nil => simp at hb
    | cons y ys =>
      cases i with
      | zero =>
        simp only [List.getElem?_cons_zero, Option.some_inj] at ha hb
        simp [ha, hb]
      | succ n =>
        simpa using ih ys n a b (by simpa using ha) (by simpa using hb)

/-- The closed-form per-point Jacobian as the specification states it:
normalized coordinates `(x, y) = inv(K) @ [u; v; 1]`, then
`K[:2,:2] @ [[-1/Z, 0, x/Z, xy, -(1+x²), y], [0, -1/Z, y/Z, 1+y², -xy, -x]]`. -/
def visjacFormula (cam : CentralCamera) (Zval : ℚ) (p : ℚ × ℚ) :
    Matrix (Fin 2) (Fin 6) ℚ :=
  let x := (invK cam.K *ᵥ ![p.1, p.2, 1]) 0
  let y := (invK cam.K *ᵥ ![p.1, p.2, 1]) 1
  CentralCamera.K22 cam.K *
    Matrix.of ![![-(1 / Zval), 0, x / Zval, x * y, -(1 + x ^ 2), y],
                ![0, -(1 / Zval), y / Zval, 1 + y ^ 2, -(x * y), -x]]

/-- The loop body of `visjac_p` is exactly the spec's closed form. -/
lemma visjacBlock_eq_formula (cam : CentralCamera) (z : ℚ) (p : ℚ × ℚ) :
    cam.visjacBlock z p = visjacFormula cam z p := by
  simp only [CentralCamera.visjacBlock, visjacFormula]
  congr 1
  ext i j
  fin_cases i <;> fin_cases j
  all_goals simp [Matrix.vecHead, Matrix.vecTail]
  all_goals (try ring)

namespace CentralCamera

/-- C6 (amended): `points2C` performs no minimum-correspondence check;
for *any* input — in particular fewer than 6 pairs — it returns the 3x4
matrix assembled from the external least-squares solution with the
homogeneous-scale entry fixed to 1, rather than raising. -/
theorem points2C_no_min_count (P : List Vec3) (p : List (Fin 2 → ℚ))
    (lstsq : List (Fin 11 → ℚ) → List ℚ → (Fin 11 → ℚ))
    (_hlen : P.length < 6) :
    (points2C P p lstsq).1 2 3 = 1 ∧
    ∀ (i : Fin 3) (j : Fin 4) (h : 4 * (i : ℕ) + (j : ℕ) < 11),
      (points2C P p lstsq).1 i j =
        lstsq (dltA P p) (dltB p) ⟨4 * (i : ℕ) + (j : ℕ), h⟩ := by
  constructor
  · norm_num [points2C, reshape34]
    intro h
    exact absurd h (by decide)
  · intro i j h
    simp [points2C, reshape34, h]

/-- Witness for the amended C6 on a single correspondence. -/
theorem points2C_no_min_count_witness :
    ([![0, 0, 1]] : List Vec3).length < 6 ∧
    ((points2C [![0, 0, 1]] [![5, 7]] (fun _ _ => 0)).1 2 3 = 1 ∧
      ∀ (i : Fin 3) (j : Fin 4) (h : 4 * (i : ℕ) + (j : ℕ) < 11),
        (points2C [![0, 0, 1]] [![5, 7]] (fun _ _ => 0)).1 i j =
          (fun _ _ => (0 : Fin 11 → ℚ)) (dltA [![0, 0, 1]] [![5, 7]])
            (dltB [![5, 7]]) ⟨4 * (i : ℕ) + (j : ℕ), h⟩) :=
  ⟨by norm_num, points2C_no_min_count _ _ _ (by norm_num)⟩

/-- Counterexample to C6 as stated: on a single correspondence (fewer
than 6), `points2C` does not fail — it returns a definite 3x4 matrix
(here evaluated with the zero solver output) and the residual `A@c-b`. -/
theorem points2C_small_input_counterexample :
    points2C [![0, 0, 1]] [![5, 7]] (fun _ _ => 0) =
      (reshape34 0, [-5, -7]) := by
  refine Prod.ext ?_ ?_
  · simp [points2C]
  · norm_num [points2C, dltA, dltB, dltRows]

/-- C9: contract of the point-feature image Jacobian `visjac_p`.  For a
depth vector of length 1 the depth is broadcast to every image point,
for one of length N each point uses its own depth, the resulting block
list pairs blocks with input points in input order, each block being the
spec's closed-form 2x6 interaction matrix; any other depth length is
rejected. -/
theorem visjac_p_contract (cam : CentralCamera) (uv : List (ℚ × ℚ))
    (Z : List ℚ) :
    (∀ z : ℚ, Z = [z] → ∃ L, cam.visjac_p uv Z = .ok L ∧
        L.length = uv.length ∧
        ∀ (i : ℕ) (p : ℚ × ℚ), uv[i]? = some p →
          L[i]? = some (visjacFormula cam z p)) ∧
    (Z.length = uv.length → ∃ L, cam.visjac_p uv Z = .ok L ∧
        L.length = uv.length ∧
        ∀ (i : ℕ) (z : ℚ) (p : ℚ × ℚ), Z[i]? = some z → uv[i]? = some p →
          L[i]? = some (visjacFormula cam z p)) ∧
    (Z.length ≠ 1 → Z.length ≠ uv.length →
        cam.visjac_p uv Z = .error Err.zLength) := by
  refine ⟨?_, ?_, ?_⟩
  · rintro z rfl
    refine ⟨uv.map (fun p => cam.visjacBlock z p), ?_, by simp, ?_⟩
    · simp [visjac_p]
    · intro i p hp
      simp [hp, visjacBlock_eq_formula]
  · intro hlen
    by_cases hz : Z.length = 1
    · obtain ⟨z, rfl⟩ := List.length_eq_one.mp hz
      refine ⟨uv.map (fun p => cam.visjacBlock z p), ?_, by simp, ?_⟩
      · simp [visjac_p]
      · intro i z' p hz' hp
        have hi : i = 0 := by
          by_contra hne
          obtain ⟨n, rfl⟩ := Nat.exists_eq_succ_of_ne_zero hne
          simp at hz'
        subst hi
        simp only [List.getElem?_cons_zero, Option.some_inj] at hz'
        subst hz'
        simp [hp, visjacBlock_eq_formula]
    · refine ⟨List.zipWith (fun z p => cam.visjacBlock z p) Z uv, ?_, ?_, ?_⟩
      · unfold visjac_p
        rw [dif_neg hz, if_pos hlen]
      · simp [List.length_zipWith, hlen]
      · intro i z p hzi hp
        exact getElem?_zipWith' _ Z uv i z p hzi hp |>.trans
          (by rw [visjacBlock_eq_formula])
  · intro h1 h2
    simp [visjac_p, h1, h2]

/-- Witness for C9: broadcast of a single depth over two image points. -/
theorem visjac_p_contract_witness :
    ([(2 : ℚ)] = [2]) ∧
    ∃ L, cam0.visjac_p [(1, 2), (3, 4)] [2] = .ok L ∧
      L.length = ([((1 : ℚ), (2 : ℚ)), (3, 4)] : List (ℚ × ℚ)).length ∧
      ∀ (i : ℕ) (p : ℚ × ℚ), ([((1 : ℚ), (2 : ℚ)), (3, 4)] : List (ℚ × ℚ))[i]? = some p →
        L[i]? = some (visjacFormula cam0 2 p) :=
  ⟨rfl, (visjac_p_contract cam0 [(1, 2), (3, 4)] [2]).1 2 rfl⟩

end CentralCamera

/-! ### Sign-correction helpers for `decomposeC` -/

/-- The sign of a rational vanishes only at zero. -/
lemma signQ_eq_zero_iff (q : ℚ) : signQ q = 0 ↔ q = 0 := by
  unfold signQ
  rcases lt_trichotomy q 0 with h | h | h
  · simp [h, h.ne]
  · simp [h]
  · simp [h.ne.symm, not_lt.mpr h.le, h.ne.symm]

/-- Multiplying a nonzero rational by its sign gives a positive value. -/
lemma signQ_mul_pos {q : ℚ} (h : q ≠ 0) : 0 < q * signQ q := by
  unfold signQ
  rcases lt_trichotomy q 0 with hq | hq | hq
  · simp only [hq, if_true]
    nlinarith
  · exact absurd hq h
  · simp only [not_lt.mpr hq.le, if_false, hq.ne.symm]
    nlinarith

/-- Determinant of the diagonal sign-correction matrix. -/
lemma det3_signDiag (K : Mat3) :
    det3 (CentralCamera.signDiag K) =
      signQ (K 0 0) * signQ (K 1 1) * signQ (K 2 2) := by
  simp [det3, CentralCamera.signDiag, Matrix.diagonal]
  ring

namespace CentralCamera

/-- C5: the sign-correction step of `decomposeC`.  When the diagonal
±1/0 matrix built from the signs of the RQ factor `K`'s diagonal does
not have determinant exactly 1, the decomposition fails with the
unrecoverable-sign-ambiguity error; when the determinant is 1, a camera
is returned whose intrinsic matrix has a strictly positive diagonal
(with the normalization `K[2,2] = 1`). -/
theorem decomposeC_sign_check (v : Vec4) (K R : Mat3) :
    (det3 (signDiag K) ≠ 1 →
        decomposeC v K R = .error Err.signAmbiguity) ∧
    (det3 (signDiag K) = 1 →
      ∃ cam : CentralCamera, decomposeC v K R = .ok cam ∧
        0 < cam.K 0 0 ∧ 0 < cam.K 1 1 ∧ cam.K 2 2 = 1) := by
  constructor
  · intro h
    unfold decomposeC
    rw [if_neg h]
  · intro h
    rw [det3_signDiag] at h
    have hne0 : K 0 0 ≠ 0 := by
      intro hz; rw [(signQ_eq_zero_iff _).mpr hz] at h; norm_num at h
    have hne1 : K 1 1 ≠ 0 := by
      intro hz; rw [(signQ_eq_zero_iff _).mpr hz] at h; norm_num at h
    have hne2 : K 2 2 ≠ 0 := by
      intro hz; rw [(signQ_eq_zero_iff _).mpr hz] at h; norm_num at h
    have hm0 : (K * signDiag K) 0 0 = K 0 0 * signQ (K 0 0) := by
      simp [signDiag, Matrix.mul_diagonal]
    have hm1 : (K * signDiag K) 1 1 = K 1 1 * signQ (K 1 1) := by
      simp [signDiag, Matrix.mul_diagonal]
    have hm2 : (K * signDiag K) 2 2 = K 2 2 * signQ (K 2 2) := by
      simp [signDiag, Matrix.mul_diagonal]
    have hpos0 : 0 < (K * signDiag K) 0 0 := hm0 ▸ signQ_mul_pos hne0
    have hpos1 : 0 < (K * signDiag K) 1 1 := hm1 ▸ signQ_mul_pos hne1
    have hpos2 : 0 < (K * signDiag K) 2 2 := hm2 ▸ signQ_mul_pos hne2
    have h' : det3 (signDiag K) = 1 := by rw [det3_signDiag]; exact h
    simp only [decomposeC, h', if_true]
    refine ⟨_, rfl, ?_, ?_, ?_⟩
    · have h00 : (0:ℚ) < (K * signDiag K) 0 0 / (K * signDiag K) 2 2 :=
        div_pos hpos0 hpos2
      simpa [CentralCamera.K] using h00
    · have h00 : (0:ℚ) < (K * signDiag K) 0 0 / (K * signDiag K) 2 2 :=
        div_pos hpos0 hpos2
      have h11 : (0:ℚ) < (K * signDiag K) 1 1 / (K * signDiag K) 2 2 :=
        div_pos hpos1 hpos2
      simpa [CentralCamera.K] using div_pos h00 (div_pos h11 h00)
    · simp [CentralCamera.K]

end CentralCamera

/-- The RQ factor `diag(1, 1, -1)` of a reflection-built camera matrix. -/
def Krefl : Mat3 := Matrix.of ![![1,0,0],![0,1,0],![0,0,-1]]

/-- A 3x4 camera matrix built from the det = -1 "rotation"
`diag(1, 1, -1)` (zero translation). -/
def Crefl : Mat34 := Matrix.of ![![1,0,0,0],![0,1,0,0],![0,0,-1,0]]

/-- An upper-triangular RQ factor whose diagonal signs multiply to 1. -/
def Kgood : Mat3 := Matrix.of ![![2,0,3],![0,4,5],![0,0,1]]

/-- A 3x4 matrix whose kernel vector has zero fourth component (camera
at infinity): its leading 3x3 block is singular. -/
def Cinf : Mat34 := Matrix.of ![![1,0,0,0],![0,1,0,0],![0,0,0,1]]

/-- The (singular) upper-triangular RQ factor of `Cinf`'s leading block. -/
def Kinf : Mat3 := Matrix.of ![![1,0,0],![0,1,0],![0,0,0]]

namespace CentralCamera

/-- Witness for C5: the reflection-built factor `diag(1,1,-1)` has sign
determinant -1 and is rejected; a factor with positive diagonal signs is
accepted and yields a positive-diagonal intrinsic matrix. -/
theorem decomposeC_sign_check_witness :
    (det3 (signDiag Krefl) ≠ 1 ∧
      M33 Crefl = Krefl * idPose.R ∧
      decomposeC ![0,0,0,1] Krefl idPose.R = .error Err.signAmbiguity) ∧
    (det3 (signDiag Kgood) = 1 ∧
      ∃ cam, decomposeC ![0,0,0,1] Kgood idPose.R = .ok cam ∧
        0 < cam.K 0 0 ∧ 0 < cam.K 1 1 ∧ cam.K 2 2 = 1) := by
  have hc0 : (Fin.castSucc (0 : Fin 3)) = (0 : Fin 4) := rfl
  have hc1 : (Fin.castSucc (1 : Fin 3)) = (1 : Fin 4) := rfl
  have hc2 : (Fin.castSucc (2 : Fin 3)) = (2 : Fin 4) := rfl
  have hr : det3 (signDiag Krefl) ≠ 1 := by
    rw [det3_signDiag]
    norm_num [Krefl, signQ, Matrix.vecHead, Matrix.vecTail]
  have hM : M33 Crefl = Krefl * idPose.R := by
    ext i j
    fin_cases i <;> fin_cases j <;>
      simp [M33, Crefl, Krefl, idPose, Matrix.mul_apply, Fin.sum_univ_three,
        Matrix.vecHead, Matrix.vecTail, hc0, hc1, hc2]
  have hg : det3 (signDiag Kgood) = 1 := by
    rw [det3_signDiag]
    norm_num [Kgood, signQ, Matrix.vecHead, Matrix.vecTail]
  exact ⟨⟨hr, hM, (decomposeC_sign_check ![0,0,0,1] Krefl idPose.R).1 hr⟩,
    hg, (decomposeC_sign_check ![0,0,0,1] Kgood idPose.R).2 hg⟩

/-- C4 (amended): `decomposeC` contains no camera-at-infinity guard —
the dehomogenising division is executed unconditionally — but for every
3x4 matrix whose kernel vector has zero fourth component the leading 3x3
block is singular, so (in exact arithmetic) the RQ factor `K` has a zero
diagonal entry and the call fails with the sign-correction error, not
with a camera-at-infinity error. -/
theorem decomposeC_at_infinity (Cm : Mat34) (v : Vec4) (K R : Mat3)
    (hv : Cm *ᵥ v = 0) (hvne : v ≠ 0) (h3 : v 3 = 0)
    (hKR : M33 Cm = K * R) (hut : upperTri K)
    (horth : R.transpose * R = 1) :
    decomposeC v K R = .error Err.signAmbiguity := by
  have hc2 : (Fin.castSucc (2 : Fin 3)) = (2 : Fin 4) := rfl
  have hwne : (fun i : Fin 3 => v i.castSucc) ≠ (0 : Vec3) := by
    intro hz
    apply hvne
    funext j
    have h0 := congrFun hz 0
    have h1 := congrFun hz 1
    have h2 := congrFun hz 2
    simp only [Fin.castSucc_zero, Fin.castSucc_one, hc2, Pi.zero_apply] at h0 h1 h2
    fin_cases j
    · simpa using h0
    · simpa using h1
    · simpa using h2
    · simpa using h3
  have hMw : (M33 Cm) *ᵥ (fun i : Fin 3 => v i.castSucc) = 0 := by
    funext i
    have hvi := congrFun hv i
    simp only [Matrix.mulVec, Matrix.dotProduct, Fin.sum_univ_four,
      Pi.zero_apply, h3, mul_zero, add_zero] at hvi
    simp only [Matrix.mulVec, Matrix.dotProduct, Fin.sum_univ_three, M33,
      Matrix.of_apply, Pi.zero_apply, Fin.castSucc_zero, Fin.castSucc_one, hc2]
    exact hvi
  have hu : K *ᵥ (R *ᵥ fun i : Fin 3 => v i.castSucc) = 0 := by
    rw [Matrix.mulVec_mulVec, ← hKR, hMw]
  have hune : (R *ᵥ fun i : Fin 3 => v i.castSucc) ≠ 0 := by
    intro hz
    apply hwne
    have h1 : R.transpose *ᵥ (R *ᵥ fun i : Fin 3 => v i.castSucc) = 0 := by
      rw [hz, Matrix.mulVec_zero]
    rwa [Matrix.mulVec_mulVec, horth, Matrix.one_mulVec] at h1
  set u : Vec3 := R *ᵥ (fun i : Fin 3 => v i.castSucc) with hudef
  obtain ⟨hl10, hl20, hl21⟩ := hut
  have e0 := congrFun hu 0
  have e1 := congrFun hu 1
  have e2 := congrFun hu 2
  simp only [Matrix.mulVec, Matrix.dotProduct, Fin.sum_univ_three,
    Pi.zero_apply, hl10, hl20, hl21, zero_mul, zero_add, add_zero] at e0 e1 e2
  have hdiag : K 0 0 = 0 ∨ K 1 1 = 0 ∨ K 2 2 = 0 := by
    by_contra hno
    push_neg at hno
    obtain ⟨hk0, hk1, hk2⟩ := hno
    have hu2 : u 2 = 0 := by
      rcases mul_eq_zero.mp e2 with h | h
      exacts [absurd h hk2, h]
    have hu1 : u 1 = 0 := by
      rw [hu2, mul_zero, add_zero] at e1
      rcases mul_eq_zero.mp e1 with h | h
      exacts [absurd h hk1, h]
    have hu0 : u 0 = 0 := by
      rw [hu2, hu1, mul_zero, mul_zero, add_zero, add_zero] at e0
      rcases mul_eq_zero.mp e0 with h | h
      exacts [absurd h hk0, h]
    apply hune
    funext i
    fin_cases i
    · simpa using hu0
    · simpa using hu1
    · simpa using hu2
  have hdet : det3 (signDiag K) ≠ 1 := by
    rw [det3_signDiag]
    rcases hdiag with h | h | h <;>
      rw [(signQ_eq_zero_iff _).mpr h] <;> norm_num
  simp [decomposeC, hdet]

/-- Counterexample to C4 as stated: for the camera-at-infinity matrix
`Cinf` (kernel vector `(0,0,1,0)`, fourth component zero) `decomposeC`
raises the sign-correction error — there is no camera-at-infinity error
path, and the dehomogenising division is not guarded. -/
theorem decomposeC_no_infinity_error :
    Cinf *ᵥ ![0,0,1,0] = 0 ∧ (![0,0,1,0] : Vec4) 3 = 0 ∧
    M33 Cinf = Kinf * idPose.R ∧ upperTri Kinf ∧
    idPose.R.transpose * idPose.R = 1 ∧
    decomposeC ![0,0,1,0] Kinf idPose.R = .error Err.signAmbiguity ∧
    Err.signAmbiguity ≠ Err.atInfinity := by
  have hc0 : (Fin.castSucc (0 : Fin 3)) = (0 : Fin 4) := rfl
  have hc1 : (Fin.castSucc (1 : Fin 3)) = (1 : Fin 4) := rfl
  have hc2 : (Fin.castSucc (2 : Fin 3)) = (2 : Fin 4) := rfl
  refine ⟨?_, rfl, ?_, ?_, ?_, ?_, by decide⟩
  · funext i
    fin_cases i <;>
      simp [Cinf, Matrix.mulVec, Matrix.dotProduct, Fin.sum_univ_four,
        Matrix.vecHead, Matrix.vecTail]
  · ext i j
    fin_cases i <;> fin_cases j <;>
      simp [M33, Cinf, Kinf, idPose, Matrix.mul_apply, Fin.sum_univ_three,
        Matrix.vecHead, Matrix.vecTail, hc0, hc1, hc2]
  · refine ⟨?_, ?_, ?_⟩ <;> simp [Kinf, upperTri, Matrix.vecHead, Matrix.vecTail]
  · ext i j
    fin_cases i <;> fin_cases j <;>
      simp [idPose, Matrix.mul_apply, Fin.sum_univ_three, Matrix.one_apply,
        Matrix.transpose, Matrix.vecHead, Matrix.vecTail]
  · have hdet : det3 (signDiag Kinf) = 0 := by
      rw [det3_signDiag]
      norm_num [Kinf, signQ, Matrix.vecHead, Matrix.vecTail]
    simp [decomposeC, hdet]

/-- Witness for the amended C4 at the concrete camera-at-infinity input. -/
theorem decomposeC_at_infinity_witness :
    (Cinf *ᵥ ![0,0,1,0] = 0 ∧ (![0,0,1,0] : Vec4) ≠ 0 ∧
      (![0,0,1,0] : Vec4) 3 = 0 ∧ M33 Cinf = Kinf * idPose.R ∧
      upperTri Kinf ∧ idPose.R.transpose * idPose.R = 1) ∧
    decomposeC ![0,0,1,0] Kinf idPose.R = .error Err.signAmbiguity := by
  have hc0 : (Fin.castSucc (0 : Fin 3)) = (0 : Fin 4) := rfl
  have hc1 : (Fin.castSucc (1 : Fin 3)) = (1 : Fin 4) := rfl
  have hc2 : (Fin.castSucc (2 : Fin 3)) = (2 : Fin 4) := rfl
  have h1 : Cinf *ᵥ ![0,0,1,0] = 0 := by
    funext i
    fin_cases i <;>
      simp [Cinf, Matrix.mulVec, Matrix.dotProduct, Fin.sum_univ_four,
        Matrix.vecHead, Matrix.vecTail]
  have h2 : (![0,0,1,0] : Vec4) ≠ 0 := by
    intro h
    have := congrFun h 2
    norm_num at this
  have h4 : M33 Cinf = Kinf * idPose.R := by
    ext i j
    fin_cases i <;> fin_cases j <;>
      simp [M33, Cinf, Kinf, idPose, Matrix.mul_apply, Fin.sum_univ_three,
        Matrix.vecHead, Matrix.vecTail, hc0, hc1, hc2]
  have h5 : upperTri Kinf := by
    refine ⟨?_, ?_, ?_⟩ <;> simp [Kinf, upperTri, Matrix.vecHead, Matrix.vecTail]
  have h6 : idPose.R.transpose * idPose.R = 1 := by
    ext i j
    fin_cases i <;> fin_cases j <;>
      simp [idPose, Matrix.mul_apply, Fin.sum_univ_three, Matrix.one_apply,
        Matrix.transpose, Matrix.vecHead, Matrix.vecTail]
  exact ⟨⟨h1, h2, rfl, h4, h5, h6⟩,
    decomposeC_at_infinity Cinf ![0,0,1,0] Kinf idPose.R h1 h2 rfl h4 h5 h6⟩

end CentralCamera

/-! ### Helper lemmas for the calibration round trip (C1) -/

/-- Fin-4 image of the first embedded index. -/
lemma castSucc0 : (Fin.castSucc (0 : Fin 3)) = (0 : Fin 4) := rfl

/-- Fin-4 image of the second embedded index. -/
lemma castSucc1 : (Fin.castSucc (1 : Fin 3)) = (1 : Fin 4) := rfl

/-- Fin-4 image of the third embedded index. -/
lemma castSucc2 : (Fin.castSucc (2 : Fin 3)) = (2 : Fin 4) := rfl

/-- `det3` agrees with Mathlib's determinant on 3x3 matrices. -/
lemma det3_eq_det (M : Mat3) : det3 M = M.det := by
  rw [Matrix.det_fin_three]
  unfold det3
  ring

/-- Taking the leading 3x3 block commutes with multiplication by a 3x3
matrix on the left. -/
lemma M33_mul (K : Mat3) (N : Mat34) :
    CentralCamera.M33 (K * N) = K * CentralCamera.M33 N := by
  ext i j
  simp [CentralCamera.M33, Matrix.mul_apply]

/-- The last column of `K @ N` is `K` applied to the last column of `N`. -/
lemma lastCol_mul (K : Mat3) (N : Mat34) :
    (fun i => (K * N) i 3) = K *ᵥ (fun i => N i 3) := by
  funext i
  simp [Matrix.mul_apply, Matrix.mulVec, Matrix.dotProduct]

/-- The leading 3x3 block of `eye(3,4) @ T.A` is the rotation block. -/
lemma M33_P0A (T : SE3Q) : CentralCamera.M33 (P0 * T.A) = T.R := by
  ext i j
  fin_cases i <;> fin_cases j <;>
    simp [CentralCamera.M33, P0, SE3Q.A, Matrix.mul_apply, Fin.sum_univ_four,
      Matrix.vecHead, Matrix.vecTail, castSucc0, castSucc1, castSucc2]

/-- The last column of `eye(3,4) @ T.A` is the translation. -/
lemma lastCol_P0A (T : SE3Q) : (fun i => (P0 * T.A) i 3) = T.t := by
  funext i
  fin_cases i <;>
    simp [P0, SE3Q.A, Matrix.mul_apply, Fin.sum_univ_four,
      Matrix.vecHead, Matrix.vecTail]

/-- Multiplying a 3x4 matrix into a homogeneous 4-vector splits into the
leading-block action on the first three coordinates plus the scaled last
column. -/
lemma mulVec_split (N : Mat34) (v : Vec4) :
    N *ᵥ v = CentralCamera.M33 N *ᵥ (fun i => v i.castSucc) +
      (v 3) • (fun i => N i 3) := by
  funext i
  simp [CentralCamera.M33, Matrix.mulVec, Matrix.dotProduct,
    Fin.sum_univ_four, Fin.sum_univ_three, castSucc0, castSucc1, castSucc2,
    Pi.smul_apply, smul_eq_mul]
  ring

/-- Left inverse counterpart of `K_mul_invK`. -/
lemma invK_mul_K (cam : CentralCamera) (ha : cam.fu / cam.rhou ≠ 0)
    (hb : cam.fv / cam.rhov ≠ 0) : invK cam.K * cam.K = 1 := by
  have hfu : cam.fu ≠ 0 := fun h => ha (by simp [h])
  have hru : cam.rhou ≠ 0 := fun h => ha (by simp [h])
  have hfv : cam.fv ≠ 0 := fun h => hb (by simp [h])
  have hrv : cam.rhov ≠ 0 := fun h => hb (by simp [h])
  ext i j
  fin_cases i <;> fin_cases j
  all_goals simp [CentralCamera.K, invK, Matrix.mul_apply, Fin.sum_univ_three,
    Matrix.one_apply, Matrix.vecHead, Matrix.vecTail]
  all_goals field_simp
  all_goals ring

/-- `invK` of any matrix is upper triangular. -/
lemma upperTri_invK (M : Mat3) : upperTri (invK M) := by
  refine ⟨?_, ?_, ?_⟩ <;> simp [invK, Matrix.vecHead, Matrix.vecTail]

/-- Products of upper-triangular 3x3 matrices are upper triangular. -/
lemma upperTri_mul {A B : Mat3} (hA : upperTri A) (hB : upperTri B) :
    upperTri (A * B) := by
  obtain ⟨a10, a20, a21⟩ := hA
  obtain ⟨b10, b20, b21⟩ := hB
  refine ⟨?_, ?_, ?_⟩ <;>
    simp [Matrix.mul_apply, Fin.sum_univ_three, a10, a20, a21, b10, b20, b21]

/-- A 3x3 orthogonal upper-triangular matrix is diagonal with ±1
entries. -/
lemma ortho_upperTri_diagonal (A : Mat3) (hut : upperTri A)
    (h : A.transpose * A = 1) :
    A = Matrix.diagonal ![A 0 0, A 1 1, A 2 2] ∧
    A 0 0 ^ 2 = 1 ∧ A 1 1 ^ 2 = 1 ∧ A 2 2 ^ 2 = 1 := by
  obtain ⟨a10, a20, a21⟩ := hut
  have h00 := congrFun (congrFun h 0) 0
  have h01 := congrFun (congrFun h 0) 1
  have h02 := congrFun (congrFun h 0) 2
  have h11 := congrFun (congrFun h 1) 1
  have h12 := congrFun (congrFun h 1) 2
  have h22 := congrFun (congrFun h 2) 2
  simp [Matrix.mul_apply, Fin.sum_univ_three, Matrix.transpose_apply,
    Matrix.one_apply, a10, a20, a21] at h00 h01 h02 h11 h12 h22
  have hA00 : A 0 0 ≠ 0 := by
    intro hz; rw [hz] at h00; norm_num at h00
  have hA01 : A 0 1 = 0 := by
    rcases h01 with hz | hz
    exacts [absurd hz hA00, hz]
  have hA02 : A 0 2 = 0 := by
    rcases h02 with hz | hz
    exacts [absurd hz hA00, hz]
  rw [hA01] at h11
  simp at h11
  have hA11 : A 1 1 ≠ 0 := by
    intro hz; rw [hz] at h11; norm_num at h11
  have hA12 : A 1 2 = 0 := by
    rw [hA01, hA02] at h12
    simp at h12
    rcases h12 with h12 | h12
    exacts [absurd h12 hA11, h12]
  rw [hA02, hA12] at h22
  simp at h22
  refine ⟨?_, by nlinarith [h00], by nlinarith [h11], by nlinarith [h22]⟩
  ext i j
  fin_cases i <;> fin_cases j <;>
    simp [Matrix.diagonal, Matrix.vecHead, Matrix.vecTail,
      a10, a20, a21, hA01, hA02, hA12]

/-- The sign of a positive multiple of ±1 recovers the sign factor. -/
lemma signQ_pos_mul {a e : ℚ} (ha : 0 < a) (he : e = 1 ∨ e = -1) :
    signQ (a * e) = e := by
  rcases he with rfl | rfl
  · simp [signQ, not_lt.mpr ha.le, ha.ne']
  · simp [signQ, ha, ha.ne']

/-- A diagonal matrix with ±1 entries squares to the identity. -/
lemma diag_pm_one_sq (e0 e1 e2 : ℚ) (h0 : e0 ^ 2 = 1) (h1 : e1 ^ 2 = 1)
    (h2 : e2 ^ 2 = 1) :
    Matrix.diagonal ![e0, e1, e2] * Matrix.diagonal ![e0, e1, e2] = 1 := by
  rw [Matrix.diagonal_mul_diagonal]
  ext i j
  fin_cases i <;> fin_cases j <;>
    simp [Matrix.diagonal, Matrix.one_apply, Matrix.vecHead, Matrix.vecTail] <;>
    nlinarith

/-- `det3` of a 3x3 diagonal matrix is the product of the diagonal. -/
lemma det3_diagonal (e0 e1 e2 : ℚ) :
    det3 (Matrix.diagonal ![e0, e1, e2]) = e0 * e1 * e2 := by
  simp [det3, Matrix.diagonal]
  ring

/-- A rational whose square is one is ±1. -/
lemma sq_one_pm (e : ℚ) (he : e ^ 2 = 1) : e = 1 ∨ e = -1 := by
  have h : (e - 1) * (e + 1) = 0 := by nlinarith
  rcases mul_eq_zero.mp h with h | h
  · left; linarith
  · right; linarith

/-- Leading-block structure of the camera matrix:
`C[:3,:3] = K @ pose.Rᵀ`. -/
lemma M33_C (cam : CentralCamera) (pose : SE3Q) :
    CentralCamera.M33 (cam.C pose) = cam.K * pose.R.transpose := by
  unfold CentralCamera.C
  rw [M33_mul, M33_P0A]
  rfl

/-- Last-column structure of the camera matrix:
`C[:,3] = K @ (pose⁻¹).t`. -/
lemma lastCol_C (cam : CentralCamera) (pose : SE3Q) :
    (fun i => (cam.C pose) i 3) = cam.K *ᵥ (SE3Q.inv pose).t := by
  unfold CentralCamera.C
  rw [lastCol_mul, lastCol_P0A]

/-- The homogenised camera centre lies in the kernel of `C`. -/
lemma C_null_center (cam : CentralCamera) (pose : SE3Q) :
    cam.C pose *ᵥ e2h pose.t = 0 := by
  rw [mulVec_split]
  have hcast : (fun i : Fin 3 => e2h pose.t i.castSucc) = pose.t := by
    funext i
    fin_cases i <;>
      simp [e2h, castSucc0, castSucc1, castSucc2, Matrix.vecHead,
        Matrix.vecTail]
  have h3 : e2h pose.t 3 = 1 := rfl
  rw [hcast, h3, one_smul, M33_C, lastCol_C]
  have hti : (SE3Q.inv pose).t = -(pose.R.transpose *ᵥ pose.t) := rfl
  rw [hti, Matrix.mulVec_neg, ← Matrix.mulVec_mulVec]
  simp

/-- A camera with unequal effective focal ratios (2 and 8). -/
def camNE : CentralCamera :=
  { fu := 2, fv := 8, rhou := 1, rhov := 1, u0 := 3, v0 := 4,
    nu := 1024, nv := 1024, pose := ⟨idPose.R, ![5, 6, 7]⟩ }

/-- A camera with equal effective focal ratios and a nontrivial
rational rotation. -/
def camEQ : CentralCamera :=
  { fu := 2, fv := 2, rhou := 1, rhov := 1, u0 := 3, v0 := 4,
    nu := 1024, nv := 1024, pose := ⟨rot35, ![5, 6, 7]⟩ }

namespace CentralCamera

/-- C1 (amended): round-trip calibration.  For a camera whose intrinsic
matrix has positive diagonal with EQUAL effective focal ratios
`fu/ρu = fv/ρv` and whose pose rotation is orthonormal with determinant
1, building the 3x4 matrix with `C()` and decomposing it (with an exact
kernel vector from the SVD and an exact RQ factorization) returns a
camera with the same intrinsic matrix and the same pose.  (For unequal
ratios the pose and principal point are still recovered, but the
recovered `K[1,1]` is `K[0,0]²/K[1,1]` because `decomposeC` passes
`rho = [1, K11/K00]` together with the scalar `f = K00`; see the
counterexample.) -/
theorem decomposeC_roundtrip (cam : CentralCamera) (v : Vec4) (K Q : Mat3)
    (ha : 0 < cam.fu / cam.rhou) (hb : 0 < cam.fv / cam.rhov)
    (hab : cam.fu / cam.rhou = cam.fv / cam.rhov)
    (hR : cam.pose.R.transpose * cam.pose.R = 1)
    (hdetR : det3 cam.pose.R = 1)
    (_ht : cam.pose.t ≠ 0)
    (hv : cam.C cam.pose *ᵥ v = 0) (hvne : v ≠ 0)
    (hKQ : M33 (cam.C cam.pose) = K * Q)
    (hut : upperTri K)
    (hQ : Q.transpose * Q = 1) (hdetQ : 0 < det3 Q) :
    ∃ cam' : CentralCamera, decomposeC v K Q = .ok cam' ∧
      cam'.K = cam.K ∧ cam'.pose.R = cam.pose.R ∧
      cam'.pose.t = cam.pose.t := by
  have hKinv : cam.K * invK cam.K = 1 := K_mul_invK cam ha.ne' hb.ne'
  have hKinv' : invK cam.K * cam.K = 1 := invK_mul_K cam ha.ne' hb.ne'
  have hRR' : cam.pose.R * cam.pose.R.transpose = 1 :=
    Matrix.mul_eq_one_comm.mp hR
  have hQQ' : Q * Q.transpose = 1 := Matrix.mul_eq_one_comm.mp hQ
  -- structure of the camera matrix
  have hM : M33 (cam.C cam.pose) = cam.K * cam.pose.R.transpose :=
    M33_C cam cam.pose
  have hL : (fun i => (cam.C cam.pose) i 3) =
      cam.K *ᵥ (SE3Q.inv cam.pose).t := lastCol_C cam cam.pose
  -- kernel analysis: the dehomogenised kernel vector is the camera centre
  have hsplit := mulVec_split (cam.C cam.pose) v
  rw [hv] at hsplit
  have h1 : cam.K *ᵥ (cam.pose.R.transpose *ᵥ (fun i => v i.castSucc) +
      (v 3) • (SE3Q.inv cam.pose).t) = 0 := by
    rw [Matrix.mulVec_add, Matrix.mulVec_smul, Matrix.mulVec_mulVec,
      ← hM, ← hL]
    exact hsplit.symm
  have h2 : cam.pose.R.transpose *ᵥ (fun i => v i.castSucc) +
      (v 3) • (SE3Q.inv cam.pose).t = 0 := by
    have hc := congrArg (fun X => invK cam.K *ᵥ X) h1
    simpa [Matrix.mulVec_mulVec, hKinv', Matrix.one_mulVec,
      Matrix.mulVec_zero] using hc
  have ht' : (SE3Q.inv cam.pose).t =
      -(cam.pose.R.transpose *ᵥ cam.pose.t) := rfl
  rw [ht', smul_neg] at h2
  have h3 : cam.pose.R.transpose *ᵥ
      ((fun i => v i.castSucc) - (v 3) • cam.pose.t) = 0 := by
    rw [Matrix.mulVec_sub, Matrix.mulVec_smul, sub_eq_add_neg]
    exact h2
  have h4 : (fun i => v i.castSucc) - (v 3) • cam.pose.t = 0 := by
    have hc := congrArg (fun X => cam.pose.R *ᵥ X) h3
    simpa [Matrix.mulVec_mulVec, hRR', Matrix.one_mulVec,
      Matrix.mulVec_zero] using hc
  have hw : (fun i => v i.castSucc) = (v 3) • cam.pose.t := sub_eq_zero.mp h4
  have hs : v 3 ≠ 0 := by
    intro hz
    apply hvne
    have hwz : (fun i : Fin 3 => v i.castSucc) = 0 := by
      rw [hw, hz, zero_smul]
    have hz0 := congrFun hwz 0
    have hz1 := congrFun hwz 1
    have hz2 := congrFun hwz 2
    simp only [Fin.castSucc_zero, Fin.castSucc_one, castSucc2,
      Pi.zero_apply] at hz0 hz1 hz2
    funext j
    fin_cases j
    · simpa using hz0
    · simpa using hz1
    · simpa using hz2
    · simpa using hz
  have htc : (fun i => v i.castSucc / v 3) = cam.pose.t := by
    funext i
    have hwi := congrFun hw i
    rw [Pi.smul_apply, smul_eq_mul] at hwi
    rw [hwi, mul_comm, mul_div_assoc, div_self hs, mul_one]
  -- RQ uniqueness: the correction matrix is diagonal ±1
  have hAQ : (invK cam.K * K) * Q = cam.pose.R.transpose := by
    rw [Matrix.mul_assoc, ← hKQ, hM, ← Matrix.mul_assoc, hKinv',
      Matrix.one_mul]
  have hAup : upperTri (invK cam.K * K) := upperTri_mul (upperTri_invK _) hut
  have hArot : invK cam.K * K = cam.pose.R.transpose * Q.transpose := by
    have hc := congrArg (fun X => X * Q.transpose) hAQ
    simpa [Matrix.mul_assoc, hQQ'] using hc
  have hAorth : (invK cam.K * K).transpose * (invK cam.K * K) = 1 := by
    rw [hArot, Matrix.transpose_mul, Matrix.transpose_transpose,
      Matrix.transpose_transpose, Matrix.mul_assoc,
      ← Matrix.mul_assoc cam.pose.R, hRR', Matrix.one_mul]
    exact hQQ'
  obtain ⟨hAdiag, he0, he1, he2⟩ :=
    ortho_upperTri_diagonal (invK cam.K * K) hAup hAorth
  -- the determinant of the correction matrix is +1
  have hdQ : Q.det = 1 := by
    have hsq : Q.det * Q.det = 1 := by
      have hc := congrArg Matrix.det hQ
      rwa [Matrix.det_mul, Matrix.det_transpose, Matrix.det_one] at hc
    have hpos : 0 < Q.det := by rw [← det3_eq_det]; exact hdetQ
    nlinarith
  have hdetA : det3 (invK cam.K * K) = 1 := by
    rw [det3_eq_det, hArot, Matrix.det_mul, Matrix.det_transpose,
      Matrix.det_transpose, hdQ, mul_one, ← det3_eq_det]
    exact hdetR
  -- extract the diagonal entries of K
  have hKeq : cam.K * (invK cam.K * K) = K := by
    rw [← Matrix.mul_assoc, hKinv, Matrix.one_mul]
  have hK00 : K 0 0 = cam.K 0 0 * (invK cam.K * K) 0 0 := by
    have hc := congrFun (congrFun hKeq 0) 0
    rw [hAdiag] at hc
    simp only [Matrix.mul_diagonal] at hc
    simpa [Matrix.vecHead, Matrix.vecTail] using hc.symm
  have hK11 : K 1 1 = cam.K 1 1 * (invK cam.K * K) 1 1 := by
    have hc := congrFun (congrFun hKeq 1) 1
    rw [hAdiag] at hc
    simp only [Matrix.mul_diagonal] at hc
    simpa [Matrix.vecHead, Matrix.vecTail] using hc.symm
  have hK22 : K 2 2 = cam.K 2 2 * (invK cam.K * K) 2 2 := by
    have hc := congrFun (congrFun hKeq 2) 2
    rw [hAdiag] at hc
    simp only [Matrix.mul_diagonal] at hc
    simpa [Matrix.vecHead, Matrix.vecTail] using hc.symm
  have hcK00 : cam.K 0 0 = cam.fu / cam.rhou := by
    simp [CentralCamera.K]
  have hcK11 : cam.K 1 1 = cam.fv / cam.rhov := by
    simp [CentralCamera.K, Matrix.vecHead, Matrix.vecTail]
  have hcK22 : cam.K 2 2 = 1 := by
    simp [CentralCamera.K, Matrix.vecHead, Matrix.vecTail]
  -- the sign matrix of K is exactly the diagonal correction matrix
  have hs0 : signQ (K 0 0) = (invK cam.K * K) 0 0 := by
    rw [hK00, hcK00]
    exact signQ_pos_mul ha (sq_one_pm _ he0)
  have hs1 : signQ (K 1 1) = (invK cam.K * K) 1 1 := by
    rw [hK11, hcK11]
    exact signQ_pos_mul hb (sq_one_pm _ he1)
  have hs2 : signQ (K 2 2) = (invK cam.K * K) 2 2 := by
    rw [hK22, hcK22]
    exact signQ_pos_mul one_pos (sq_one_pm _ he2)
  have hsdA : signDiag K = invK cam.K * K := by
    unfold signDiag
    rw [hs0, hs1, hs2, ← hAdiag]
  have hcond : det3 (signDiag K) = 1 := by rw [hsdA]; exact hdetA
  have hAA : (invK cam.K * K) * (invK cam.K * K) = 1 := by
    rw [hAdiag]
    exact diag_pm_one_sq _ _ _ he0 he1 he2
  have hKD : K * signDiag K = cam.K := by
    rw [hsdA]
    calc K * (invK cam.K * K)
        = (cam.K * (invK cam.K * K)) * (invK cam.K * K) := by rw [hKeq]
      _ = cam.K * ((invK cam.K * K) * (invK cam.K * K)) := by
          rw [Matrix.mul_assoc]
      _ = cam.K := by rw [hAA, Matrix.mul_one]
  have hsdT : (signDiag K).transpose = signDiag K := by
    unfold signDiag
    exact Matrix.diagonal_transpose _
  have hR1 : (signDiag K).transpose * Q = cam.pose.R.transpose := by
    rw [hsdT, hsdA, hAQ]
  -- run the decomposition
  have hrun : decomposeC v K Q = .ok
      { fu := cam.K 0 0, fv := cam.K 0 0, rhou := 1,
        rhov := cam.K 1 1 / cam.K 0 0, u0 := cam.K 0 2, v0 := cam.K 1 2,
        nu := 1024, nv := 1024,
        pose := ⟨cam.pose.R, fun i => v i.castSucc / v 3⟩ } := by
    simp only [decomposeC, hcond, if_true, hKD, hcK22, div_one,
      Matrix.of_apply, hR1, Matrix.transpose_transpose]
  refine ⟨_, hrun, ?_, rfl, htc⟩
  ext i j
  fin_cases i <;> fin_cases j
  all_goals simp [CentralCamera.K, Matrix.vecHead, Matrix.vecTail]
  rw [hab, div_self hb.ne', div_one]

/-- Witness for the amended C1: exact round trip at a camera with equal
focal ratios, principal point (3,4), the 3-4-5 rotation and translation
(5,6,7). -/
theorem decomposeC_roundtrip_witness :
    (0 < camEQ.fu / camEQ.rhou ∧
      camEQ.fu / camEQ.rhou = camEQ.fv / camEQ.rhov ∧
      camEQ.pose.R.transpose * camEQ.pose.R = 1 ∧
      det3 camEQ.pose.R = 1 ∧ camEQ.pose.t ≠ 0 ∧
      camEQ.C camEQ.pose *ᵥ e2h ![5, 6, 7] = 0 ∧
      M33 (camEQ.C camEQ.pose) = camEQ.K * rot35.transpose ∧
      upperTri camEQ.K ∧
      rot35.transpose.transpose * rot35.transpose = 1 ∧
      0 < det3 rot35.transpose) ∧
    ∃ cam', decomposeC (e2h ![5, 6, 7]) camEQ.K rot35.transpose = .ok cam' ∧
      cam'.K = camEQ.K ∧ cam'.pose.R = camEQ.pose.R ∧
      cam'.pose.t = camEQ.pose.t := by
  have ha : 0 < camEQ.fu / camEQ.rhou := by norm_num [camEQ]
  have hb : 0 < camEQ.fv / camEQ.rhov := by norm_num [camEQ]
  have hab : camEQ.fu / camEQ.rhou = camEQ.fv / camEQ.rhov := by
    norm_num [camEQ]
  have hR : camEQ.pose.R.transpose * camEQ.pose.R = 1 := by
    show rot35.transpose * rot35 = 1
    ext i j
    fin_cases i <;> fin_cases j <;>
      norm_num [rot35, Matrix.mul_apply, Fin.sum_univ_three,
        Matrix.transpose, Matrix.one_apply, Fin.ext_iff, Matrix.vecHead,
        Matrix.vecTail]
  have hdetR : det3 camEQ.pose.R = 1 := by
    show det3 rot35 = 1
    norm_num [det3, rot35, Matrix.vecHead, Matrix.vecTail]
  have ht : camEQ.pose.t ≠ 0 := by
    intro h
    have := congrFun h 0
    norm_num [camEQ] at this
  have hv : camEQ.C camEQ.pose *ᵥ e2h ![5, 6, 7] = 0 :=
    C_null_center camEQ camEQ.pose
  have hvne : e2h ![5, 6, 7] ≠ 0 := by
    intro h
    have := congrFun h 3
    norm_num [e2h] at this
  have hKQ : M33 (camEQ.C camEQ.pose) = camEQ.K * rot35.transpose :=
    M33_C camEQ camEQ.pose
  have hut : upperTri camEQ.K := by
    refine ⟨?_, ?_, ?_⟩ <;>
      simp [camEQ, CentralCamera.K, Matrix.vecHead, Matrix.vecTail]
  have hQ : rot35.transpose.transpose * rot35.transpose = 1 := by
    ext i j
    fin_cases i <;> fin_cases j <;>
      norm_num [rot35, Matrix.mul_apply, Fin.sum_univ_three,
        Matrix.transpose, Matrix.one_apply, Fin.ext_iff, Matrix.vecHead,
        Matrix.vecTail]
  have hdetQ : 0 < det3 rot35.transpose := by
    norm_num [det3, rot35, Matrix.transpose, Matrix.vecHead, Matrix.vecTail]
  exact ⟨⟨ha, hab, hR, hdetR, ht, hv, hKQ, hut, hQ, hdetQ⟩,
    decomposeC_roundtrip camEQ (e2h ![5, 6, 7]) camEQ.K rot35.transpose
      ha hb hab hR hdetR ht hv hvne hKQ hut hQ hdetQ⟩

/-- Counterexample to C1 as stated: for `camNE` (focal ratios 2 and 8,
identity rotation, nonzero finite translation) the decomposition of its
exactly-factored camera matrix returns a camera whose `K[1,1]` is `1/2`
instead of the original 8, so the intrinsic matrix is NOT recovered. -/
theorem decomposeC_roundtrip_counterexample :
    camNE.C camNE.pose *ᵥ e2h ![5, 6, 7] = 0 ∧
    M33 (camNE.C camNE.pose) = camNE.K * idPose.R.transpose ∧
    upperTri camNE.K ∧
    idPose.R.transpose.transpose * idPose.R.transpose = 1 ∧
    0 < det3 idPose.R.transpose ∧
    camNE.pose.R.transpose * camNE.pose.R = 1 ∧ det3 camNE.pose.R = 1 ∧
    camNE.pose.t ≠ 0 ∧
    ∃ cam', decomposeC (e2h ![5, 6, 7]) camNE.K idPose.R.transpose =
        .ok cam' ∧
      cam'.K 1 1 = 1/2 ∧ camNE.K 1 1 = 8 ∧ cam'.K ≠ camNE.K := by
  have hsd : signDiag camNE.K = Matrix.diagonal ![1, 1, 1] := by
    have h0 : signQ (camNE.K 0 0) = 1 := by
      norm_num [camNE, CentralCamera.K, signQ, Matrix.vecHead, Matrix.vecTail]
    have h1 : signQ (camNE.K 1 1) = 1 := by
      norm_num [camNE, CentralCamera.K, signQ, Matrix.vecHead, Matrix.vecTail]
    have h2 : signQ (camNE.K 2 2) = 1 := by
      norm_num [camNE, CentralCamera.K, signQ, Matrix.vecHead, Matrix.vecTail]
    unfold signDiag
    rw [h0, h1, h2]
  have hcond : det3 (signDiag camNE.K) = 1 := by
    rw [hsd, det3_diagonal]
    norm_num
  have hrec : ∃ cam',
      decomposeC (e2h ![5, 6, 7]) camNE.K idPose.R.transpose = .ok cam' ∧
      cam'.K 1 1 = 1/2 := by
    simp only [decomposeC, hcond, if_true]
    refine ⟨_, rfl, ?_⟩
    norm_num [CentralCamera.K, camNE, signDiag, signQ, Matrix.mul_diagonal,
      Matrix.diagonal, Matrix.of_apply, Fin.ext_iff, Matrix.vecHead,
      Matrix.vecTail]
  obtain ⟨cam', hok, h11⟩ := hrec
  have hNE11 : camNE.K 1 1 = 8 := by
    norm_num [camNE, CentralCamera.K, Matrix.vecHead, Matrix.vecTail]
  have hne : cam'.K ≠ camNE.K := by
    intro h
    have hc := congrFun (congrFun h 1) 1
    rw [h11, hNE11] at hc
    norm_num at hc
  have horth : idPose.R.transpose.transpose * idPose.R.transpose = 1 := by
    ext i j
    fin_cases i <;> fin_cases j <;>
      norm_num [idPose, Matrix.mul_apply, Fin.sum_univ_three,
        Matrix.transpose, Matrix.one_apply, Fin.ext_iff, Matrix.vecHead,
        Matrix.vecTail]
  have horth2 : camNE.pose.R.transpose * camNE.pose.R = 1 := by
    show idPose.R.transpose * idPose.R = 1
    ext i j
    fin_cases i <;> fin_cases j <;>
      norm_num [idPose, Matrix.mul_apply, Fin.sum_univ_three,
        Matrix.transpose, Matrix.one_apply, Fin.ext_iff, Matrix.vecHead,
        Matrix.vecTail]
  refine ⟨C_null_center camNE camNE.pose, M33_C camNE camNE.pose, ?_, horth,
    ?_, horth2, ?_, ?_, cam', hok, h11, hNE11, hne⟩
  · refine ⟨?_, ?_, ?_⟩ <;>
      simp [camNE, CentralCamera.K, Matrix.vecHead, Matrix.vecTail]
  · norm_num [det3, idPose, Matrix.transpose, Matrix.vecHead, Matrix.vecTail]
  · show det3 idPose.R = 1
    norm_num [det3, idPose, Matrix.vecHead, Matrix.vecTail]
  · intro h
    have := congrFun h 0
    norm_num [camNE] at this

end CentralCamera

end MVT
